import Mathlib

/-!
Shallow embedding of the sorting module `src/sort.rs` of the `algo`
repository, together with proofs and refutations of the specification
claims about it.

Conventions of the embedding:
* A Rust slice `&mut [T]` is a Lean `List α`; in-place mutation becomes
  explicit state passing.
* The comparison closure `cmp: Fn(&T, &T) -> bool` is `cmp : α → α → Bool`.
* Rust `for` loops become structurally recursive functions whose extra
  natural-number argument is the exact number of remaining iterations of
  the loop, so every embedded function is executable and `decide`-friendly.
* `usize` subtraction is checked arithmetic: where the source can
  underflow (cocktail sort) the embedding returns `Option` and yields
  `none` exactly when the Rust code panics (debug overflow check, or the
  ensuing out-of-bounds slice access in release builds).
* `combine`'s `assert_eq!` and the length precondition of
  `copy_from_slice` are modeled by `Option`: `none` is the panicking
  branch.
* Quicksort's `thread_rng().gen_range(start, end)` is modeled by an
  oracle `rng : ℕ → ℕ` consumed at an explicit counter; the drawn value
  is reduced `% (end - start)` so that every oracle describes a possible
  run and every run is described by some oracle.
-/

namespace SortAlgo

variable {α : Type} [Inhabited α]

/-- Rust `a.swap(i, j)` on lists.  Both reads are taken from the original
list before either write, matching the simultaneous exchange. -/
def swapL (l : List α) (i j : ℕ) : List α :=
  let xi := l.getD i default
  let xj := l.getD j default
  (l.set i xj).set j xi

/-- Concrete comparison used for counterexamples: numeric less-than. -/
def natLtB (a b : ℕ) : Bool := decide (a < b)

/-- Concrete comparison on tagged pairs that only inspects the key,
used to observe (in)stability. -/
def keyLtB (p q : ℕ × ℕ) : Bool := decide (p.1 < q.1)

/-- Order correctness as the spec states it: no adjacent positions
`i, i+1` of the output with `cmp (out[i+1]) (out[i])` true. -/
def adjOrdered (cmp : α → α → Bool) : List α → Bool
  | x :: y :: t => !cmp y x && adjOrdered cmp (y :: t)
  | _ => true

/-! ### Selection sort (`selection`, src/sort.rs lines 31-43) -/

/-- Inner loop of `selection`: `for j in i+1..a.len()` updating `i_min`.
`n` counts the remaining iterations. -/
def selGo (cmp : α → α → Bool) (a : List α) (iMin j : ℕ) : ℕ → ℕ
  | 0 => iMin
  | n+1 =>
    if cmp (a.getD j default) (a.getD iMin default) then selGo cmp a j (j+1) n
    else selGo cmp a iMin (j+1) n

/-- The `i_min` computed by one outer iteration of `selection` at `i`. -/
def selIdx (cmp : α → α → Bool) (a : List α) (i : ℕ) : ℕ :=
  selGo cmp a i (i+1) (a.length - (i+1))

/-- One outer iteration of `selection`: find `i_min`, swap if distinct. -/
def selStep (cmp : α → α → Bool) (a : List α) (i : ℕ) : List α :=
  let m := selIdx cmp a i
  if m ≠ i then swapL a m i else a

/-- Outer loop of `selection`: `for i in 0..=a.len()` (the source range is
inclusive; the extra final iteration is a no-op). -/
def selLoop (cmp : α → α → Bool) (a : List α) (i : ℕ) : ℕ → List α
  | 0 => a
  | n+1 => selLoop cmp (selStep cmp a i) (i+1) n

/-- `selection` entry point. -/
def selectionSort (cmp : α → α → Bool) (a : List α) : List α :=
  selLoop cmp a 0 (a.length + 1)

/-! ### Bubble sort (`bubble`, lines 61-69) -/

/-- One adjacent compare-and-swap at position `j`, shared by the bubble
inner loop, the insertion inner loop and cocktail's backward pass. -/
def bStep (cmp : α → α → Bool) (a : List α) (j : ℕ) : List α :=
  if cmp (a.getD (j+1) default) (a.getD j default) then swapL a j (j+1) else a

/-- Forward adjacent pass `for i in j..j+n`, also reporting whether any
swap happened (cocktail's `changed` flag; bubble ignores it). -/
def fwdGo (cmp : α → α → Bool) (a : List α) (j : ℕ) (ch : Bool) : ℕ → List α × Bool
  | 0 => (a, ch)
  | n+1 =>
    if cmp (a.getD (j+1) default) (a.getD j default)
    then fwdGo cmp (swapL a j (j+1)) (j+1) true n
    else fwdGo cmp a (j+1) ch n

/-- Outer loop of `bubble`: `for i in (0..a.len()).rev()`, inner
`for j in 0..i`. -/
def bubLoop (cmp : α → α → Bool) (a : List α) : ℕ → List α
  | 0 => a
  | n+1 => bubLoop cmp (fwdGo cmp a 0 false n).1 n

/-- `bubble` entry point. -/
def bubbleSort (cmp : α → α → Bool) (a : List α) : List α :=
  bubLoop cmp a a.length

/-! ### Insertion sort (`insection`, lines 133-141) -/

/-- Descending adjacent pass `for i in (s..s+n).rev()` built from
`bStep`; first processed index is `s+n-1`, last is `s`. -/
def bwdGo (cmp : α → α → Bool) (a : List α) (s : ℕ) : ℕ → List α
  | 0 => a
  | n+1 => bwdGo cmp (bStep cmp a (s+n)) s n

/-- Outer loop of `insection`: `for i in 1..a.len()`, inner
`for j in (0..i).rev()`. -/
def insLoop (cmp : α → α → Bool) (a : List α) (i : ℕ) : ℕ → List α
  | 0 => a
  | n+1 => insLoop cmp (bwdGo cmp a 0 i) (i+1) n

/-- `insection` entry point. -/
def insectionSort (cmp : α → α → Bool) (a : List α) : List α :=
  insLoop cmp a 1 (a.length - 1)

/-! ### Cocktail sort (`cocktail`, lines 88-115)

The source manipulates `start`/`end` with unchecked `usize` subtraction:
`end -= 1` underflows when `end == 0` and the backward range `start..end-1`
underflows when `end == 0` after the decrement.  Those states are `none`.
The unconditional `changed = true;` before the backward pass makes the
`while` condition vacuously true after a backward pass, so it is not
modeled as state. -/

/-- The `while changed` loop of `cocktail`, structurally recursive on the
`end` bound, which the body always decrements. -/
def cocktailLoop (cmp : α → α → Bool) (s : ℕ) (a : List α) : ℕ → Option (List α)
  | 0 => none
  | e+1 =>
    let p := fwdGo cmp a s false (e + 1 - s)
    if p.2 = false then some p.1
    else if e = 0 then none
    else cocktailLoop cmp (s+1) (bwdGo cmp p.1 s (e - 1 - s)) e

/-- `cocktail` entry point; `a.len() - 1` underflows on the empty slice. -/
def cocktailSort (cmp : α → α → Bool) (a : List α) : Option (List α) :=
  if a.length = 0 then none
  else cocktailLoop cmp 0 a (a.length - 1)

/-! ### Quicksort (`quick` / `partition`, lines 212-238) -/

/-- Scan loop of `partition`: `for j in start..end` with boundary `i`. -/
def partGo (cmp : α → α → Bool) (pivot : α) (a : List α) (i j : ℕ) : ℕ → List α × ℕ
  | 0 => (a, i)
  | n+1 =>
    if cmp (a.getD j default) pivot
    then partGo cmp pivot (swapL a i j) (i+1) (j+1) n
    else partGo cmp pivot a i (j+1) n

/-- `partition`: the random pivot index is `r % (a.len() - 1)`, the range
of `gen_range(start, end)`; returns the array and `i + 1`. -/
def partitionF (cmp : α → α → Bool) (a : List α) (r : ℕ) : List α × ℕ :=
  let e := a.length - 1
  let rand := r % e
  let pivot := a.getD rand default
  let b := swapL a rand e
  let pr := partGo cmp pivot b 0 0 e
  (swapL pr.1 pr.2 e, pr.2 + 1)

/-! ### Heap sort (`heap` / `heapify`, lines 256-280) -/

/-- The `root` selected by one `heapify` body: children are `2*aux` and
`2*aux+1` exactly as in the source. -/
def heapRoot (cmp : α → α → Bool) (a : List α) (aux : ℕ) : ℕ :=
  let e := a.length
  let r1 :=
    if 2*aux < e ∧ cmp (a.getD aux default) (a.getD (2*aux) default) = true then 2*aux
    else aux
  if 2*aux + 1 < e ∧ cmp (a.getD r1 default) (a.getD (2*aux+1) default) = true then 2*aux + 1
  else r1

theorem swapL_length (l : List α) (i j : ℕ) : (swapL l i j).length = l.length := by
  simp [swapL]

/-- When `heapify` recurses, the new node index is strictly larger than
`aux` and in bounds (the guards `left_child < end`, `right_child < end`). -/
theorem heapRoot_bounds (cmp : α → α → Bool) (a : List α) (aux : ℕ)
    (h : heapRoot cmp a aux ≠ aux) :
    aux < heapRoot cmp a aux ∧ heapRoot cmp a aux < a.length := by
  dsimp only [heapRoot] at h ⊢
  by_cases h1 : 2*aux < a.length ∧ cmp (a.getD aux default) (a.getD (2*aux) default) = true
  · rw [if_pos h1] at h ⊢
    by_cases h2 : 2*aux + 1 < a.length ∧
        cmp (a.getD (2*aux) default) (a.getD (2*aux+1) default) = true
    · rw [if_pos h2]
      exact ⟨by omega, h2.1⟩
    · rw [if_neg h2] at h ⊢
      exact ⟨by omega, h1.1⟩
  · rw [if_neg h1] at h ⊢
    by_cases h2 : 2*aux + 1 < a.length ∧
        cmp (a.getD aux default) (a.getD (2*aux+1) default) = true
    · rw [if_pos h2]
      exact ⟨by omega, h2.1⟩
    · rw [if_neg h2] at h
      exact absurd rfl h

/-- `heapify`: sift the node `aux` down, recursing while a child wins. -/
def heapify (cmp : α → α → Bool) (a : List α) (aux : ℕ) : List α :=
  let root := heapRoot cmp a aux
  if h : root ≠ aux then heapify cmp (swapL a aux root) root else a
termination_by a.length - aux
decreasing_by
  rw [swapL_length]
  have := heapRoot_bounds cmp a aux h
  omega

/-- Build phase of `heap`: `for i in (0..end/2).rev()`. -/
def buildIter (cmp : α → α → Bool) (a : List α) : ℕ → List α
  | 0 => a
  | n+1 => buildIter cmp (heapify cmp a n) n

/-- One extraction step of `heap`: `a.swap(0, i); heapify(&mut a[..i], cmp, 0)`;
the suffix `a[i..]` is untouched by the call on the prefix slice. -/
def extractStep (cmp : α → α → Bool) (a : List α) (i : ℕ) : List α :=
  let b := swapL a 0 i
  heapify cmp (b.take i) 0 ++ b.drop i

/-- Extraction phase of `heap`: `for i in (0..end).rev()`. -/
def extractIter (cmp : α → α → Bool) (a : List α) : ℕ → List α
  | 0 => a
  | n+1 => extractIter cmp (extractStep cmp a n) n

/-- `heap` entry point (`end` is the length, fixed for the whole call). -/
def heapSort (cmp : α → α → Bool) (a : List α) : List α :=
  extractIter cmp (buildIter cmp a (a.length / 2)) a.length

/-! ### Merge sort (`merge` / `combine`, lines 159-193) -/

/-- `o[k..].copy_from_slice(src)`: defined when `k` is a valid cut of `o`
and the region length matches `src` exactly, otherwise a panic (`none`). -/
def copySeg (o : List α) (k : ℕ) (src : List α) : Option (List α) :=
  if k ≤ o.length ∧ o.length - k = src.length then some (o.take k ++ src) else none

/-- The `while i<l.len() && j<r.len()` loop of `combine` followed by the
two residual copies. -/
def combineGo (cmp : α → α → Bool) (l r : List α) (o : List α) (i j k : ℕ) :
    Option (List α) :=
  if i < l.length ∧ j < r.length then
    if cmp (l.getD i default) (r.getD j default)
    then combineGo cmp l r (o.set k (l.getD i default)) (i+1) j (k+1)
    else combineGo cmp l r (o.set k (r.getD j default)) i (j+1) (k+1)
  else
    (if i < l.length then copySeg o k (l.drop i) else some o).bind
      (fun o1 => if j < r.length then copySeg o1 k (r.drop j) else some o1)
termination_by (l.length - i) + (r.length - j)
decreasing_by all_goals omega

/-- `combine` entry: `assert_eq!(r.len()+l.len(), o.len())` then the loop. -/
def combine (cmp : α → α → Bool) (l r o : List α) : Option (List α) :=
  if r.length + l.length = o.length then combineGo cmp l r o 0 0 0 else none

/-- `merge`: split at `len/2`, sort both halves, combine into the buffer
`o` (a copy of the slice after the recursive calls, i.e. `lh ++ rh`). -/
def mergeSort (cmp : α → α → Bool) (a : List α) : Option (List α) :=
  if a.length ≤ 1 then some a
  else
    match mergeSort cmp (a.take (a.length / 2)), mergeSort cmp (a.drop (a.length / 2)) with
    | some lh, some rh => combine cmp lh rh (lh ++ rh)
    | _, _ => none
termination_by a.length
decreasing_by
  · simp only [List.length_take]
    omega
  · simp only [List.length_drop]
    omega

theorem partGo_length (cmp : α → α → Bool) (pivot : α) :
    ∀ (n : ℕ) (a : List α) (i j : ℕ), (partGo cmp pivot a i j n).1.length = a.length := by
  intro n
  induction n with
  | zero => intro a i j; rfl
  | succ n ih =>
    intro a i j
    simp only [partGo]
    by_cases hc : cmp (a.getD j default) pivot
    · rw [if_pos hc, ih, swapL_length]
    · rw [if_neg hc, ih]

theorem partGo_snd_le (cmp : α → α → Bool) (pivot : α) :
    ∀ (n : ℕ) (a : List α) (i j : ℕ), (partGo cmp pivot a i j n).2 ≤ i + n := by
  intro n
  induction n with
  | zero => intro a i j; exact Nat.le_refl i
  | succ n ih =>
    intro a i j
    simp only [partGo]
    by_cases hc : cmp (a.getD j default) pivot
    · rw [if_pos hc]
      have := ih (swapL a i j) (i+1) (j+1)
      omega
    · rw [if_neg hc]
      have := ih a i (j+1)
      omega

theorem partitionF_length (cmp : α → α → Bool) (a : List α) (r : ℕ) :
    (partitionF cmp a r).1.length = a.length := by
  simp only [partitionF, swapL_length, partGo_length]

theorem partitionF_snd_pos (cmp : α → α → Bool) (a : List α) (r : ℕ) :
    1 ≤ (partitionF cmp a r).2 := by
  simp only [partitionF]
  omega

theorem partitionF_snd_le (cmp : α → α → Bool) (a : List α) (r : ℕ) (h : 1 ≤ a.length) :
    (partitionF cmp a r).2 ≤ a.length := by
  simp only [partitionF]
  have := partGo_snd_le cmp (a.getD (r % (a.length - 1)) default)
    (a.length - 1) (swapL a (r % (a.length - 1)) (a.length - 1)) 0 0
  omega

/-- `quick`: return below length 2, otherwise partition and recurse on the
sub-ranges `start..mid-1` and `mid..end`; the element at `mid-1` (the
pivot's resting place) is in neither.  The pair threads the count of
random draws consumed so far. -/
def quickAux (cmp : α → α → Bool) (rng : ℕ → ℕ) (a : List α) (k : ℕ) : List α × ℕ :=
  if h : a.length ≤ 1 then (a, k)
  else
    let pm := partitionF cmp a (rng k)
    let lp := quickAux cmp rng (pm.1.take (pm.2 - 1)) (k+1)
    let rp := quickAux cmp rng (pm.1.drop pm.2) lp.2
    (lp.1 ++ pm.1.getD (pm.2 - 1) default :: rp.1, rp.2)
termination_by a.length
decreasing_by
  · have h1 := partitionF_length cmp a (rng k)
    have h2 := partitionF_snd_pos cmp a (rng k)
    have h3 := partitionF_snd_le cmp a (rng k) (by omega)
    simp only [List.length_take, h1]
    omega
  · have h1 := partitionF_length cmp a (rng k)
    have h2 := partitionF_snd_pos cmp a (rng k)
    simp only [List.length_drop, h1]
    omega

/-- `quick` entry point at a fresh random counter. -/
def quickSort (cmp : α → α → Bool) (rng : ℕ → ℕ) (a : List α) : List α :=
  (quickAux cmp rng a 0).1

/-! ### Basic facts about `swapL` and the passes -/

theorem getD_head_set_perm :
    ∀ (t : List α) (k : ℕ) (x : α), k < t.length →
      List.Perm (t.getD k default :: t.set k x) (x :: t) := by
  intro t
  induction t with
  | nil => intro k x hk; simp at hk
  | cons b t ih =>
    intro k x hk
    cases k with
    | zero =>
      simp only [List.getD_cons_zero, List.set_cons_zero]
      exact List.Perm.swap x b t
    | succ k =>
      simp only [List.getD_cons_succ, List.set_cons_succ]
      have h1 : List.Perm (t.getD k default :: b :: t.set k x)
          (b :: (t.getD k default :: t.set k x)) := List.Perm.swap b _ _
      have h2 : List.Perm (b :: (t.getD k default :: t.set k x)) (b :: (x :: t)) :=
        (ih k x (by simpa using hk)).cons b
      exact (h1.trans h2).trans (List.Perm.swap x b t)

theorem swapL_cons (b : α) (t : List α) (i j : ℕ) :
    swapL (b :: t) (i+1) (j+1) = b :: swapL t i j := by
  simp [swapL, List.getD_cons_succ, List.set_cons_succ]

theorem swapL_perm :
    ∀ (l : List α) (i j : ℕ), i < l.length → j < l.length →
      List.Perm (swapL l i j) l := by
  intro l
  induction l with
  | nil => intro i j hi; simp at hi
  | cons b t ih =>
    intro i j hi hj
    cases i with
    | zero =>
      cases j with
      | zero => simp [swapL]
      | succ j =>
        have hj' : j < t.length := by simpa using hj
        simp only [swapL, List.getD_cons_zero, List.getD_cons_succ,
          List.set_cons_zero, List.set_cons_succ]
        exact getD_head_set_perm t j b hj'
    | succ i =>
      cases j with
      | zero =>
        have hi' : i < t.length := by simpa using hi
        simp only [swapL, List.getD_cons_zero, List.getD_cons_succ,
          List.set_cons_succ, List.set_cons_zero]
        exact getD_head_set_perm t i b hi'
      | succ j =>
        rw [swapL_cons]
        exact (ih i j (by simpa using hi) (by simpa using hj)).cons b

theorem swapL_getD_of_ne (l : List α) (i j k : ℕ) (hki : k ≠ i) (hkj : k ≠ j) :
    (swapL l i j).getD k default = l.getD k default := by
  by_cases hk : k < l.length
  · rw [List.getD_eq_getElem _ _ (by simpa [swapL] using hk),
      List.getD_eq_getElem _ _ hk]
    simp only [swapL]
    rw [List.getElem_set_ne (by omega), List.getElem_set_ne (by omega)]
  · rw [List.getD_eq_default _ _ (by simp [swapL]; omega),
      List.getD_eq_default _ _ (by omega)]

theorem swapL_getD_snd (l : List α) (i j : ℕ) (hj : j < l.length) :
    (swapL l i j).getD j default = l.getD i default := by
  rw [List.getD_eq_getElem _ _ (by simpa [swapL] using hj)]
  simp [swapL, List.getElem_set, hj]

theorem swapL_getD_fst (l : List α) (i j : ℕ) (hi : i < l.length) :
    (swapL l i j).getD i default = l.getD j default := by
  by_cases hij : i = j
  · subst hij
    exact swapL_getD_snd l i i hi
  · rw [List.getD_eq_getElem _ _ (by simpa [swapL] using hi)]
    simp only [swapL]
    rw [List.getElem_set_ne (by omega), List.getElem_set (by simpa using hi)]
    simp [List.getD_eq_getElem l default hi]

theorem bStep_length (cmp : α → α → Bool) (a : List α) (j : ℕ) :
    (bStep cmp a j).length = a.length := by
  unfold bStep
  split
  · rw [swapL_length]
  · rfl

theorem bStep_perm (cmp : α → α → Bool) (a : List α) (j : ℕ) (h : j + 1 < a.length) :
    List.Perm (bStep cmp a j) a := by
  unfold bStep
  split
  · exact swapL_perm a j (j+1) (by omega) h
  · exact List.Perm.refl a

theorem fwdGo_length (cmp : α → α → Bool) :
    ∀ (n : ℕ) (a : List α) (j : ℕ) (ch : Bool),
      (fwdGo cmp a j ch n).1.length = a.length := by
  intro n
  induction n with
  | zero => intro a j ch; rfl
  | succ n ih =>
    intro a j ch
    simp only [fwdGo]
    split
    · rw [ih, swapL_length]
    · rw [ih]

theorem fwdGo_perm (cmp : α → α → Bool) :
    ∀ (n : ℕ) (a : List α) (j : ℕ) (ch : Bool), (n = 0 ∨ j + n < a.length) →
      List.Perm (fwdGo cmp a j ch n).1 a := by
  intro n
  induction n with
  | zero => intro a j ch _; exact List.Perm.refl a
  | succ n ih =>
    intro a j ch h
    have hb : j + n + 1 < a.length := by omega
    simp only [fwdGo]
    split
    · exact (ih (swapL a j (j+1)) (j+1) true
        (by rw [swapL_length]; omega)).trans
        (swapL_perm a j (j+1) (by omega) (by omega))
    · exact ih a (j+1) ch (by omega)

theorem bwdGo_length (cmp : α → α → Bool) :
    ∀ (n : ℕ) (a : List α) (s : ℕ), (bwdGo cmp a s n).length = a.length := by
  intro n
  induction n with
  | zero => intro a s; rfl
  | succ n ih =>
    intro a s
    simp only [bwdGo]
    rw [ih, bStep_length]

theorem bwdGo_perm (cmp : α → α → Bool) :
    ∀ (n : ℕ) (a : List α) (s : ℕ), (n = 0 ∨ s + n < a.length) →
      List.Perm (bwdGo cmp a s n) a := by
  intro n
  induction n with
  | zero => intro a s _; exact List.Perm.refl a
  | succ n ih =>
    intro a s h
    have hb : s + n + 1 < a.length := by omega
    simp only [bwdGo]
    exact (ih (bStep cmp a (s+n)) s
      (by rw [bStep_length]; omega)).trans (bStep_perm cmp a (s+n) (by omega))

/-! ### Permutation facts per algorithm -/

theorem selGo_lt (cmp : α → α → Bool) (a : List α) :
    ∀ (n iMin j : ℕ), iMin < a.length → j + n ≤ a.length →
      selGo cmp a iMin j n < a.length := by
  intro n
  induction n with
  | zero => intro iMin j h _; exact h
  | succ n ih =>
    intro iMin j h hj
    simp only [selGo]
    split
    · exact ih j (j+1) (by omega) (by omega)
    · exact ih iMin (j+1) h (by omega)

theorem selIdx_eq_of_ge (cmp : α → α → Bool) (a : List α) (i : ℕ)
    (h : a.length ≤ i + 1) : selIdx cmp a i = i := by
  unfold selIdx
  rw [Nat.sub_eq_zero_of_le h]
  rfl

theorem selStep_length (cmp : α → α → Bool) (a : List α) (i : ℕ) :
    (selStep cmp a i).length = a.length := by
  simp only [selStep]
  split
  · rw [swapL_length]
  · rfl

theorem selStep_perm (cmp : α → α → Bool) (a : List α) (i : ℕ) :
    List.Perm (selStep cmp a i) a := by
  simp only [selStep]
  split
  · rename_i hne
    have hlen : i + 1 < a.length := by
      by_contra hc
      exact hne (selIdx_eq_of_ge cmp a i (by omega))
    have hm : selIdx cmp a i < a.length :=
      selGo_lt cmp a (a.length - (i+1)) i (i+1) (by omega) (by omega)
    exact swapL_perm a (selIdx cmp a i) i hm (by omega)
  · exact List.Perm.refl a

theorem selLoop_perm (cmp : α → α → Bool) :
    ∀ (n : ℕ) (a : List α) (i : ℕ), List.Perm (selLoop cmp a i n) a := by
  intro n
  induction n with
  | zero => intro a i; exact List.Perm.refl a
  | succ n ih =>
    intro a i
    exact (ih (selStep cmp a i) (i+1)).trans (selStep_perm cmp a i)

theorem selectionSort_perm (cmp : α → α → Bool) (a : List α) :
    List.Perm (selectionSort cmp a) a :=
  selLoop_perm cmp (a.length + 1) a 0

theorem bubLoop_perm (cmp : α → α → Bool) :
    ∀ (n : ℕ) (a : List α), n ≤ a.length → List.Perm (bubLoop cmp a n) a := by
  intro n
  induction n with
  | zero => intro a _; exact List.Perm.refl a
  | succ n ih =>
    intro a h
    simp only [bubLoop]
    exact (ih (fwdGo cmp a 0 false n).1
      (by rw [fwdGo_length]; omega)).trans (fwdGo_perm cmp n a 0 false (by omega))

theorem bubbleSort_perm (cmp : α → α → Bool) (a : List α) :
    List.Perm (bubbleSort cmp a) a :=
  bubLoop_perm cmp a.length a (Nat.le_refl _)

theorem insLoop_perm (cmp : α → α → Bool) :
    ∀ (n : ℕ) (a : List α) (i : ℕ), (n = 0 ∨ i + n ≤ a.length) →
      List.Perm (insLoop cmp a i n) a := by
  intro n
  induction n with
  | zero => intro a i _; exact List.Perm.refl a
  | succ n ih =>
    intro a i h
    have hb : i + n + 1 ≤ a.length := by omega
    simp only [insLoop]
    exact (ih (bwdGo cmp a 0 i) (i+1)
      (by rw [bwdGo_length]; omega)).trans (bwdGo_perm cmp i a 0 (by omega))

theorem insectionSort_perm (cmp : α → α → Bool) (a : List α) :
    List.Perm (insectionSort cmp a) a :=
  insLoop_perm cmp (a.length - 1) a 1 (by omega)

theorem cocktailLoop_perm (cmp : α → α → Bool) :
    ∀ (e : ℕ) (s : ℕ) (a b : List α), e < a.length →
      cocktailLoop cmp s a e = some b → List.Perm b a := by
  intro e
  induction e with
  | zero => intro s a b _ hc; exact absurd hc (by simp [cocktailLoop])
  | succ e ih =>
    intro s a b he hc
    simp only [cocktailLoop] at hc
    by_cases hch : (fwdGo cmp a s false (e + 1 - s)).2 = false
    · rw [if_pos hch] at hc
      cases hc
      exact fwdGo_perm cmp (e+1-s) a s false (by omega)
    · rw [if_neg hch] at hc
      by_cases he0 : e = 0
      · rw [if_pos he0] at hc
        exact absurd hc (by simp)
      · rw [if_neg he0] at hc
        have hp : List.Perm (fwdGo cmp a s false (e + 1 - s)).1 a :=
          fwdGo_perm cmp (e+1-s) a s false (by omega)
        have hlen1 : (fwdGo cmp a s false (e + 1 - s)).1.length = a.length :=
          fwdGo_length cmp (e+1-s) a s false
        have hq : List.Perm
            (bwdGo cmp (fwdGo cmp a s false (e + 1 - s)).1 s (e - 1 - s))
            (fwdGo cmp a s false (e + 1 - s)).1 :=
          bwdGo_perm cmp (e-1-s) (fwdGo cmp a s false (e + 1 - s)).1 s
            (by rw [hlen1]; omega)
        have hlen2 :
            (bwdGo cmp (fwdGo cmp a s false (e + 1 - s)).1 s (e - 1 - s)).length
              = a.length := by rw [bwdGo_length, hlen1]
        exact ((ih (s+1) _ b (by omega) hc).trans hq).trans hp

theorem cocktailSort_perm (cmp : α → α → Bool) (a b : List α)
    (h : cocktailSort cmp a = some b) : List.Perm b a := by
  unfold cocktailSort at h
  by_cases h0 : a.length = 0
  · rw [if_pos h0] at h
    exact absurd h (by simp)
  · rw [if_neg h0] at h
    exact cocktailLoop_perm cmp (a.length - 1) 0 a b (by omega) h

theorem heapify_length_aux (cmp : α → α → Bool) :
    ∀ (fuel : ℕ) (a : List α) (aux : ℕ), a.length - aux ≤ fuel →
      (heapify cmp a aux).length = a.length := by
  intro fuel
  induction fuel with
  | zero =>
    intro a aux hf
    rw [heapify]
    by_cases hr : heapRoot cmp a aux ≠ aux
    · have := heapRoot_bounds cmp a aux hr
      omega
    · rw [dif_neg hr]
  | succ fuel ih =>
    intro a aux hf
    rw [heapify]
    by_cases hr : heapRoot cmp a aux ≠ aux
    · rw [dif_pos hr]
      have hb := heapRoot_bounds cmp a aux hr
      rw [ih (swapL a aux (heapRoot cmp a aux)) (heapRoot cmp a aux)
        (by rw [swapL_length]; omega)]
      rw [swapL_length]
    · rw [dif_neg hr]

theorem heapify_length (cmp : α → α → Bool) (a : List α) (aux : ℕ) :
    (heapify cmp a aux).length = a.length :=
  heapify_length_aux cmp a.length a aux (by omega)

theorem heapify_perm_aux (cmp : α → α → Bool) :
    ∀ (fuel : ℕ) (a : List α) (aux : ℕ), a.length - aux ≤ fuel →
      List.Perm (heapify cmp a aux) a := by
  intro fuel
  induction fuel with
  | zero =>
    intro a aux hf
    rw [heapify]
    by_cases hr : heapRoot cmp a aux ≠ aux
    · have := heapRoot_bounds cmp a aux hr
      omega
    · rw [dif_neg hr]
  | succ fuel ih =>
    intro a aux hf
    rw [heapify]
    by_cases hr : heapRoot cmp a aux ≠ aux
    · rw [dif_pos hr]
      have hb := heapRoot_bounds cmp a aux hr
      have h1 : List.Perm (heapify cmp (swapL a aux (heapRoot cmp a aux))
          (heapRoot cmp a aux)) (swapL a aux (heapRoot cmp a aux)) :=
        ih (swapL a aux (heapRoot cmp a aux)) (heapRoot cmp a aux)
          (by rw [swapL_length]; omega)
      exact h1.trans (swapL_perm a aux (heapRoot cmp a aux) (by omega) hb.2)
    · rw [dif_neg hr]

theorem heapify_perm (cmp : α → α → Bool) (a : List α) (aux : ℕ) :
    List.Perm (heapify cmp a aux) a :=
  heapify_perm_aux cmp a.length a aux (by omega)

theorem buildIter_length (cmp : α → α → Bool) :
    ∀ (n : ℕ) (a : List α), (buildIter cmp a n).length = a.length := by
  intro n
  induction n with
  | zero => intro a; rfl
  | succ n ih =>
    intro a
    simp only [buildIter]
    rw [ih, heapify_length]

theorem buildIter_perm (cmp : α → α → Bool) :
    ∀ (n : ℕ) (a : List α), List.Perm (buildIter cmp a n) a := by
  intro n
  induction n with
  | zero => intro a; exact List.Perm.refl a
  | succ n ih =>
    intro a
    simp only [buildIter]
    exact (ih (heapify cmp a n)).trans (heapify_perm cmp a n)

theorem extractStep_length (cmp : α → α → Bool) (a : List α) (i : ℕ) (h : i ≤ a.length) :
    (extractStep cmp a i).length = a.length := by
  simp only [extractStep, List.length_append, heapify_length, List.length_take,
    List.length_drop, swapL_length]
  omega

theorem extractStep_perm (cmp : α → α → Bool) (a : List α) (i : ℕ) (h : i < a.length) :
    List.Perm (extractStep cmp a i) a := by
  simp only [extractStep]
  have hb : List.Perm (swapL a 0 i) a := swapL_perm a 0 i (by omega) h
  have h1 : List.Perm (heapify cmp ((swapL a 0 i).take i) 0 ++ (swapL a 0 i).drop i)
      ((swapL a 0 i).take i ++ (swapL a 0 i).drop i) :=
    (heapify_perm cmp ((swapL a 0 i).take i) 0).append_right _
  rw [List.take_append_drop] at h1
  exact h1.trans hb

theorem extractIter_length (cmp : α → α → Bool) :
    ∀ (n : ℕ) (a : List α), n ≤ a.length → (extractIter cmp a n).length = a.length := by
  intro n
  induction n with
  | zero => intro a _; rfl
  | succ n ih =>
    intro a h
    simp only [extractIter]
    rw [ih (extractStep cmp a n) (by rw [extractStep_length cmp a n (by omega)]; omega),
      extractStep_length cmp a n (by omega)]

theorem extractIter_perm (cmp : α → α → Bool) :
    ∀ (n : ℕ) (a : List α), n ≤ a.length → List.Perm (extractIter cmp a n) a := by
  intro n
  induction n with
  | zero => intro a _; exact List.Perm.refl a
  | succ n ih =>
    intro a h
    simp only [extractIter]
    exact (ih (extractStep cmp a n)
      (by rw [extractStep_length cmp a n (by omega)]; omega)).trans
      (extractStep_perm cmp a n (by omega))

theorem heapSort_perm (cmp : α → α → Bool) (a : List α) :
    List.Perm (heapSort cmp a) a := by
  unfold heapSort
  exact (extractIter_perm cmp a.length (buildIter cmp a (a.length / 2))
    (by rw [buildIter_length])).trans (buildIter_perm cmp (a.length / 2) a)

/-! ### Merge facts: the loop writes exactly a functional merge -/

/-- Reference functional merge describing what `combine` produces.  On a
tie (`cmp x y = false`) the element of the RIGHT half is taken first,
mirroring the `else` branch of the source loop. -/
def fmerge (cmp : α → α → Bool) : List α → List α → List α
  | [], r => r
  | l, [] => l
  | x :: xs, y :: ys =>
    if cmp x y then x :: fmerge cmp xs (y :: ys) else y :: fmerge cmp (x :: xs) ys

theorem fmerge_nil_left (cmp : α → α → Bool) (r : List α) : fmerge cmp [] r = r := by
  cases r <;> simp [fmerge]

theorem fmerge_nil_right (cmp : α → α → Bool) (l : List α) : fmerge cmp l [] = l := by
  cases l <;> simp [fmerge]

theorem set_take_succ :
    ∀ (o : List α) (k : ℕ) (x : α), k < o.length →
      (o.set k x).take (k+1) = o.take k ++ [x] := by
  intro o
  induction o with
  | nil => intro k x hk; simp at hk
  | cons c t ih =>
    intro k x hk
    cases k with
    | zero => simp
    | succ k =>
      simp only [List.set_cons_succ, List.take_succ_cons]
      rw [ih k x (by simpa using hk)]
      rfl

theorem drop_eq_getD_cons (l : List α) (n : ℕ) (h : n < l.length) :
    l.drop n = l.getD n default :: l.drop (n+1) := by
  rw [List.getD_eq_getElem l default h]
  exact List.drop_eq_getElem_cons h

theorem combineGo_eq (cmp : α → α → Bool) :
    ∀ (fuel : ℕ) (l r o : List α) (i j k : ℕ),
      (l.length - i) + (r.length - j) ≤ fuel →
      i ≤ l.length → j ≤ r.length → k ≤ o.length →
      o.length - k = (l.length - i) + (r.length - j) →
      combineGo cmp l r o i j k =
        some (o.take k ++ fmerge cmp (l.drop i) (r.drop j)) := by
  intro fuel
  induction fuel with
  | zero =>
    intro l r o i j k hf hi hj hk hm
    have hi' : i = l.length := by omega
    have hj' : j = r.length := by omega
    have hk' : k = o.length := by omega
    rw [combineGo, if_neg (by omega), if_neg (by omega), Option.some_bind,
      if_neg (by omega)]
    rw [hi', hj', hk', List.drop_length, List.drop_length, fmerge_nil_left,
      List.take_length, List.append_nil]
  | succ fuel ih =>
    intro l r o i j k hf hi hj hk hm
    rw [combineGo]
    by_cases hij : i < l.length ∧ j < r.length
    · rw [if_pos hij]
      have hio : k < o.length := by omega
      rw [drop_eq_getD_cons l i hij.1, drop_eq_getD_cons r j hij.2]
      simp only [fmerge]
      by_cases hc : cmp (l.getD i default) (r.getD j default) = true
      · rw [if_pos hc, if_pos hc]
        rw [ih l r (o.set k (l.getD i default)) (i+1) j (k+1) (by omega) (by omega) hj
          (by rw [List.length_set]; omega) (by rw [List.length_set]; omega)]
        rw [set_take_succ o k _ hio]
        rw [drop_eq_getD_cons r j hij.2]
        simp [List.append_assoc]
      · rw [if_neg hc, if_neg hc]
        rw [ih l r (o.set k (r.getD j default)) i (j+1) (k+1) (by omega) hi (by omega)
          (by rw [List.length_set]; omega) (by rw [List.length_set]; omega)]
        rw [set_take_succ o k _ hio]
        rw [drop_eq_getD_cons l i hij.1]
        simp [List.append_assoc]
    · rw [if_neg hij]
      by_cases hi2 : i < l.length
      · have hj2 : j = r.length := by omega
        rw [if_pos hi2]
        simp only [copySeg]
        rw [if_pos ⟨hk, by rw [List.length_drop]; omega⟩, Option.some_bind,
          if_neg (by omega)]
        rw [hj2, List.drop_length, fmerge_nil_right]
      · have hi' : i = l.length := by omega
        rw [if_neg hi2, Option.some_bind]
        by_cases hj2 : j < r.length
        · rw [if_pos hj2]
          simp only [copySeg]
          rw [if_pos ⟨hk, by rw [List.length_drop]; omega⟩]
          rw [hi', List.drop_length, fmerge_nil_left]
        · have hj' : j = r.length := by omega
          have hk' : k = o.length := by omega
          rw [if_neg hj2]
          rw [hi', hj', hk', List.drop_length, List.drop_length, fmerge_nil_left,
            List.take_length, List.append_nil]

theorem combine_eq (cmp : α → α → Bool) (l r o : List α)
    (h : r.length + l.length = o.length) :
    combine cmp l r o = some (fmerge cmp l r) := by
  unfold combine
  rw [if_pos h]
  rw [combineGo_eq cmp (l.length + r.length) l r o 0 0 0 (by omega) (by omega)
    (by omega) (by omega) (by omega)]
  simp

theorem fmerge_perm (cmp : α → α → Bool) :
    ∀ (fuel : ℕ) (l r : List α), l.length + r.length ≤ fuel →
      List.Perm (fmerge cmp l r) (l ++ r) := by
  intro fuel
  induction fuel with
  | zero =>
    intro l r hf
    have : l = [] := by
      cases l
      · rfl
      · simp at hf
    subst this
    have : r = [] := by
      cases r
      · rfl
      · simp at hf
    subst this
    rw [fmerge_nil_left]
    exact List.Perm.refl _
  | succ fuel ih =>
    intro l r hf
    cases l with
    | nil => rw [fmerge_nil_left]; exact List.Perm.refl _
    | cons x xs =>
      cases r with
      | nil => rw [fmerge_nil_right, List.append_nil]
      | cons y ys =>
        simp only [fmerge]
        by_cases hc : cmp x y = true
        · rw [if_pos hc]
          exact ((ih xs (y :: ys) (by simp only [List.length_cons] at hf ⊢; omega)).cons x)
        · rw [if_neg hc]
          have h1 : List.Perm (y :: fmerge cmp (x :: xs) ys)
              (y :: ((x :: xs) ++ ys)) :=
            (ih (x :: xs) ys (by simp only [List.length_cons] at hf ⊢; omega)).cons y
          exact h1.trans List.perm_middle.symm

theorem mergeSort_eq_some (cmp : α → α → Bool) :
    ∀ (fuel : ℕ) (a : List α), a.length ≤ fuel →
      ∃ out, mergeSort cmp a = some out ∧ List.Perm out a := by
  intro fuel
  induction fuel with
  | zero =>
    intro a hf
    rw [mergeSort, if_pos (by omega)]
    exact ⟨a, rfl, List.Perm.refl a⟩
  | succ fuel ih =>
    intro a hf
    by_cases h1 : a.length ≤ 1
    · rw [mergeSort, if_pos h1]
      exact ⟨a, rfl, List.Perm.refl a⟩
    · rw [mergeSort, if_neg h1]
      obtain ⟨lh, el, pl⟩ := ih (a.take (a.length / 2))
        (by rw [List.length_take]; omega)
      obtain ⟨rh, er, pr⟩ := ih (a.drop (a.length / 2))
        (by rw [List.length_drop]; omega)
      rw [el, er]
      refine ⟨fmerge cmp lh rh, ?_, ?_⟩
      · show combine cmp lh rh (lh ++ rh) = some (fmerge cmp lh rh)
        exact combine_eq cmp lh rh (lh ++ rh) (by rw [List.length_append]; omega)
      · have p3 := fmerge_perm cmp (lh.length + rh.length) lh rh (Nat.le_refl _)
        have h4 : a.take (a.length / 2) ++ a.drop (a.length / 2) = a :=
          List.take_append_drop _ a
        exact p3.trans ((pl.append pr).trans (by rw [h4]))

theorem mergeSort_perm (cmp : α → α → Bool) (a b : List α)
    (h : mergeSort cmp a = some b) : List.Perm b a := by
  obtain ⟨out, e, p⟩ := mergeSort_eq_some cmp a.length a (Nat.le_refl _)
  rw [h] at e
  cases e
  exact p

theorem mergeSort_isSome (cmp : α → α → Bool) (a : List α) :
    (mergeSort cmp a).isSome = true := by
  obtain ⟨out, e, _⟩ := mergeSort_eq_some cmp a.length a (Nat.le_refl _)
  rw [e]
  rfl

theorem partGo_perm (cmp : α → α → Bool) (pivot : α) :
    ∀ (n : ℕ) (a : List α) (i j : ℕ), i ≤ j → j + n ≤ a.length →
      List.Perm (partGo cmp pivot a i j n).1 a := by
  intro n
  induction n with
  | zero => intro a i j _ _; exact List.Perm.refl a
  | succ n ih =>
    intro a i j hij hn
    simp only [partGo]
    split
    · exact (ih (swapL a i j) (i+1) (j+1) (by omega)
        (by rw [swapL_length]; omega)).trans (swapL_perm a i j (by omega) (by omega))
    · exact ih a i (j+1) (by omega) (by omega)

theorem partitionF_perm (cmp : α → α → Bool) (a : List α) (r : ℕ) (h : 2 ≤ a.length) :
    List.Perm (partitionF cmp a r).1 a := by
  have hrand : r % (a.length - 1) < a.length - 1 := Nat.mod_lt _ (by omega)
  have hblen : (swapL a (r % (a.length - 1)) (a.length - 1)).length = a.length :=
    swapL_length a _ _
  have hperm1 : List.Perm (swapL a (r % (a.length - 1)) (a.length - 1)) a :=
    swapL_perm a _ _ (by omega) (by omega)
  have hperm2 := partGo_perm cmp (a.getD (r % (a.length - 1)) default) (a.length - 1)
    (swapL a (r % (a.length - 1)) (a.length - 1)) 0 0 (Nat.le_refl 0)
    (by rw [hblen]; omega)
  have hlen2 : (partGo cmp (a.getD (r % (a.length - 1)) default)
      (swapL a (r % (a.length - 1)) (a.length - 1)) 0 0 (a.length - 1)).1.length
      = a.length := by rw [partGo_length, hblen]
  have hle := partGo_snd_le cmp (a.getD (r % (a.length - 1)) default) (a.length - 1)
    (swapL a (r % (a.length - 1)) (a.length - 1)) 0 0
  have hperm3 := swapL_perm (partGo cmp (a.getD (r % (a.length - 1)) default)
      (swapL a (r % (a.length - 1)) (a.length - 1)) 0 0 (a.length - 1)).1
    (partGo cmp (a.getD (r % (a.length - 1)) default)
      (swapL a (r % (a.length - 1)) (a.length - 1)) 0 0 (a.length - 1)).2
    (a.length - 1) (by omega) (by omega)
  exact hperm3.trans (hperm2.trans hperm1)

theorem take_getD_drop (l : List α) (m : ℕ) (h1 : 1 ≤ m) (h2 : m ≤ l.length) :
    l.take (m-1) ++ l.getD (m-1) default :: l.drop m = l := by
  have hm : m - 1 < l.length := by omega
  have hmm : m - 1 + 1 = m := by omega
  have hd : l.drop (m-1) = l.getD (m-1) default :: l.drop m := by
    rw [drop_eq_getD_cons l (m-1) hm, hmm]
  rw [← hd]
  exact List.take_append_drop (m-1) l

theorem quickAux_perm (cmp : α → α → Bool) (rng : ℕ → ℕ) :
    ∀ (fuel : ℕ) (a : List α) (k : ℕ), a.length ≤ fuel →
      List.Perm (quickAux cmp rng a k).1 a := by
  intro fuel
  induction fuel with
  | zero =>
    intro a k hf
    rw [quickAux, dif_pos (by omega)]
  | succ fuel ih =>
    intro a k hf
    by_cases h1 : a.length ≤ 1
    · rw [quickAux, dif_pos h1]
    · rw [quickAux, dif_neg h1]
      have hp := partitionF_perm cmp a (rng k) (by omega)
      have hl := partitionF_length cmp a (rng k)
      have h2 := partitionF_snd_pos cmp a (rng k)
      have h3 := partitionF_snd_le cmp a (rng k) (by omega)
      have ihl := ih ((partitionF cmp a (rng k)).1.take ((partitionF cmp a (rng k)).2 - 1))
        (k+1) (by rw [List.length_take]; omega)
      have ihr := ih ((partitionF cmp a (rng k)).1.drop (partitionF cmp a (rng k)).2)
        ((quickAux cmp rng
          ((partitionF cmp a (rng k)).1.take ((partitionF cmp a (rng k)).2 - 1)) (k+1)).2)
        (by rw [List.length_drop]; omega)
      have hdec := take_getD_drop (partitionF cmp a (rng k)).1
        (partitionF cmp a (rng k)).2 h2 (by omega)
      exact ((ihl.append (ihr.cons _)).trans (by rw [hdec])).trans hp

/-! ### The Lomuto invariant of `partition` -/

theorem partGo_inv (cmp : α → α → Bool) (pivot : α) :
    ∀ (n : ℕ) (a : List α) (i j : ℕ),
      i ≤ j → j + n ≤ a.length →
      (∀ k, k < i → cmp (a.getD k default) pivot = true) →
      (∀ k, i ≤ k → k < j → cmp (a.getD k default) pivot = false) →
      i ≤ (partGo cmp pivot a i j n).2 ∧
      (partGo cmp pivot a i j n).2 ≤ j + n ∧
      (∀ k, k < (partGo cmp pivot a i j n).2 →
        cmp ((partGo cmp pivot a i j n).1.getD k default) pivot = true) ∧
      (∀ k, (partGo cmp pivot a i j n).2 ≤ k → k < j + n →
        cmp ((partGo cmp pivot a i j n).1.getD k default) pivot = false) ∧
      (∀ k, j + n ≤ k →
        (partGo cmp pivot a i j n).1.getD k default = a.getD k default) := by
  intro n
  induction n with
  | zero =>
    intro a i j hij hn h1 h2
    simp only [partGo]
    exact ⟨Nat.le_refl i, by omega, fun k hk => h1 k hk,
      fun k hk1 hk2 => h2 k hk1 (by omega), fun k _ => trivial⟩
  | succ n ih =>
    intro a i j hij hn h1 h2
    simp only [partGo]
    by_cases hc : cmp (a.getD j default) pivot = true
    · rw [if_pos hc]
      have hjlen : j < a.length := by omega
      have hilen : i < a.length := by omega
      have h1' : ∀ k, k < i + 1 → cmp ((swapL a i j).getD k default) pivot = true := by
        intro k hk
        by_cases hki : k = i
        · subst hki
          rw [swapL_getD_fst a k j hilen]
          exact hc
        · rw [swapL_getD_of_ne a i j k hki (by omega)]
          exact h1 k (by omega)
      have h2' : ∀ k, i + 1 ≤ k → k < j + 1 →
          cmp ((swapL a i j).getD k default) pivot = false := by
        intro k hk1 hk2
        by_cases hkj : k = j
        · subst hkj
          rw [swapL_getD_snd a i k hjlen]
          exact h2 i (Nat.le_refl i) (by omega)
        · rw [swapL_getD_of_ne a i j k (by omega) hkj]
          exact h2 k (by omega) (by omega)
      have hres := ih (swapL a i j) (i+1) (j+1) (by omega)
        (by rw [swapL_length]; omega) h1' h2'
      refine ⟨by omega, by omega, hres.2.2.1, ?_, ?_⟩
      · intro k hk1 hk2
        exact hres.2.2.2.1 k hk1 (by omega)
      · intro k hk
        rw [hres.2.2.2.2 k (by omega), swapL_getD_of_ne a i j k (by omega) (by omega)]
    · rw [if_neg hc]
      have hc' : cmp (a.getD j default) pivot = false := by
        simp only [Bool.not_eq_true] at hc
        exact hc
      have h2' : ∀ k, i ≤ k → k < j + 1 →
          cmp (a.getD k default) pivot = false := by
        intro k hk1 hk2
        by_cases hkj : k = j
        · subst hkj
          exact hc'
        · exact h2 k hk1 (by omega)
      have hres := ih a i (j+1) (by omega) (by omega) h1 h2'
      refine ⟨hres.1, by omega, hres.2.2.1, ?_, ?_⟩
      · intro k hk1 hk2
        exact hres.2.2.2.1 k hk1 (by omega)
      · intro k hk
        exact hres.2.2.2.2 k (by omega)

theorem partitionF_spec (cmp : α → α → Bool) (a : List α) (r : ℕ) (h : 2 ≤ a.length) :
    (partitionF cmp a r).1.length = a.length ∧
    1 ≤ (partitionF cmp a r).2 ∧ (partitionF cmp a r).2 ≤ a.length ∧
    (partitionF cmp a r).1.getD ((partitionF cmp a r).2 - 1) default
      = a.getD (r % (a.length - 1)) default ∧
    (∀ k, k < (partitionF cmp a r).2 - 1 →
      cmp ((partitionF cmp a r).1.getD k default)
        (a.getD (r % (a.length - 1)) default) = true) ∧
    (∀ k, (partitionF cmp a r).2 ≤ k → k < a.length →
      cmp ((partitionF cmp a r).1.getD k default)
        (a.getD (r % (a.length - 1)) default) = false) := by
  have hrand : r % (a.length - 1) < a.length - 1 := Nat.mod_lt _ (by omega)
  have hblen : (swapL a (r % (a.length - 1)) (a.length - 1)).length = a.length :=
    swapL_length a _ _
  have hinv := partGo_inv cmp (a.getD (r % (a.length - 1)) default) (a.length - 1)
    (swapL a (r % (a.length - 1)) (a.length - 1)) 0 0 (Nat.le_refl 0)
    (by rw [hblen]; omega) (fun k hk => absurd hk (by omega))
    (fun k hk1 hk2 => absurd hk2 (by omega))
  have hgolen : (partGo cmp (a.getD (r % (a.length - 1)) default)
      (swapL a (r % (a.length - 1)) (a.length - 1)) 0 0 (a.length - 1)).1.length
      = a.length := by rw [partGo_length, hblen]
  have hf0 : (partGo cmp (a.getD (r % (a.length - 1)) default)
      (swapL a (r % (a.length - 1)) (a.length - 1)) 0 0 (a.length - 1)).2
      ≤ a.length - 1 := by
    have := hinv.2.1
    omega
  have hpivotAtEnd : (partGo cmp (a.getD (r % (a.length - 1)) default)
      (swapL a (r % (a.length - 1)) (a.length - 1)) 0 0 (a.length - 1)).1.getD
        (a.length - 1) default = a.getD (r % (a.length - 1)) default := by
    rw [hinv.2.2.2.2 (a.length - 1) (by omega)]
    rw [swapL_getD_snd a _ _ (by omega)]
  simp only [partitionF]
  refine ⟨by rw [swapL_length, hgolen], by omega, by omega, ?_, ?_, ?_⟩
  · rw [Nat.add_sub_cancel]
    rw [swapL_getD_fst _ _ _ (by omega)]
    exact hpivotAtEnd
  · intro k hk
    rw [Nat.add_sub_cancel] at hk
    rw [swapL_getD_of_ne _ _ _ k (by omega) (by omega)]
    exact hinv.2.2.1 k hk
  · intro k hk1 hk2
    by_cases hke : k = a.length - 1
    · subst hke
      rw [swapL_getD_snd _ _ _ (by omega)]
      exact hinv.2.2.2.1 _ (Nat.le_refl _) (by omega)
    · rw [swapL_getD_of_ne _ _ _ k (by omega) hke]
      exact hinv.2.2.2.1 k (by omega) (by omega)

/-! ### The minimum-selection invariant of `selection` -/

theorem selGo_inv (cmp : α → α → Bool) (a : List α)
    (hirr : ∀ x : α, cmp x x = false)
    (htr : ∀ x y z : α, cmp x y = true → cmp y z = true → cmp x z = true) :
    ∀ (n i iMin j : ℕ),
      i ≤ iMin → iMin < j → j + n ≤ a.length →
      (∀ k, i ≤ k → k < j → cmp (a.getD k default) (a.getD iMin default) = false) →
      i ≤ selGo cmp a iMin j n ∧ selGo cmp a iMin j n < j + n ∧
      (∀ k, i ≤ k → k < j + n →
        cmp (a.getD k default) (a.getD (selGo cmp a iMin j n) default) = false) := by
  intro n
  induction n with
  | zero =>
    intro i iMin j hi hj hn hmin
    simp only [selGo]
    exact ⟨hi, by omega, fun k hk1 hk2 => hmin k hk1 (by omega)⟩
  | succ n ih =>
    intro i iMin j hi hj hn hmin
    simp only [selGo]
    by_cases hc : cmp (a.getD j default) (a.getD iMin default) = true
    · rw [if_pos hc]
      have hmin' : ∀ k, i ≤ k → k < j + 1 →
          cmp (a.getD k default) (a.getD j default) = false := by
        intro k hk1 hk2
        by_cases hkj : k = j
        · subst hkj
          exact hirr _
        · cases hval : cmp (a.getD k default) (a.getD j default) with
          | false => rfl
          | true =>
            have := htr _ _ _ hval hc
            rw [hmin k hk1 (by omega)] at this
            exact absurd this (by simp)
      have hres := ih i j (j+1) (by omega) (by omega) (by omega) hmin'
      exact ⟨hres.1, by omega, fun k hk1 hk2 => hres.2.2 k hk1 (by omega)⟩
    · rw [if_neg hc]
      have hc' : cmp (a.getD j default) (a.getD iMin default) = false := by
        simp only [Bool.not_eq_true] at hc
        exact hc
      have hmin' : ∀ k, i ≤ k → k < j + 1 →
          cmp (a.getD k default) (a.getD iMin default) = false := by
        intro k hk1 hk2
        by_cases hkj : k = j
        · subst hkj
          exact hc'
        · exact hmin k hk1 (by omega)
      have hres := ih i iMin (j+1) hi (by omega) (by omega) hmin'
      exact ⟨hres.1, by omega, fun k hk1 hk2 => hres.2.2 k hk1 (by omega)⟩

theorem selIdx_min (cmp : α → α → Bool) (a : List α) (i : ℕ)
    (hirr : ∀ x : α, cmp x x = false)
    (htr : ∀ x y z : α, cmp x y = true → cmp y z = true → cmp x z = true)
    (hi : i < a.length) :
    i ≤ selIdx cmp a i ∧ selIdx cmp a i < a.length ∧
    (∀ k, i ≤ k → k < a.length →
      cmp (a.getD k default) (a.getD (selIdx cmp a i) default) = false) := by
  have hres := selGo_inv cmp a hirr htr (a.length - (i+1)) i i (i+1) (Nat.le_refl i)
    (by omega) (by omega)
    (by
      intro k hk1 hk2
      have hk : k = i := by omega
      subst hk
      exact hirr _)
  unfold selIdx
  exact ⟨hres.1, by omega, fun k hk1 hk2 => hres.2.2 k hk1 (by omega)⟩

theorem cocktailLoop_exit (cmp : α → α → Bool) (s e : ℕ) (a : List α)
    (he : 1 ≤ e) (hch : (fwdGo cmp a s false (e - s)).2 = false) :
    cocktailLoop cmp s a e = some (fwdGo cmp a s false (e - s)).1 := by
  cases e with
  | zero => omega
  | succ e =>
    simp only [cocktailLoop]
    rw [if_pos hch]

theorem combine_isSome (cmp : α → α → Bool) (l r o : List α)
    (h : r.length + l.length = o.length) : (combine cmp l r o).isSome = true := by
  rw [combine_eq cmp l r o h]
  rfl

/-! ## The claims -/

/-- Claim C1 (order correctness of all seven sorts): refuted by the code.
`heap` maps the already-ordered `[1,2,3]` to `[1,3,2]` (its `heapify`
uses children `2k`/`2k+1` instead of `2k+1`/`2k+2`), and `cocktail` maps
`[3,2,1]` to `[2,1,3]` (its backward pass stops one position short), so
both outputs contain an adjacent pair with `less_than(out[i+1], out[i])`
true. -/
theorem claim_C1 :
    heapSort natLtB [1,2,3] = [1,3,2] ∧
    adjOrdered natLtB (heapSort natLtB [1,2,3]) = false ∧
    cocktailSort natLtB [3,2,1] = some [2,1,3] ∧
    adjOrdered natLtB [2,1,3] = false := by
  have h : heapSort natLtB [1,2,3] = [1,3,2] := by
    simp [heapSort, buildIter, extractIter, extractStep, heapify, heapRoot, swapL, natLtB]
  refine ⟨h, by rw [h]; decide, by decide, by decide⟩

/-- Claim C2 (permutation property), amended: the six sorts that can
never panic always return a permutation of their input, and `cocktail`
returns a permutation whenever it returns at all (it panics on some
inputs, see C3/C4). -/
theorem claim_C2 :
    (∀ (cmp : α → α → Bool) (a : List α), List.Perm (selectionSort cmp a) a) ∧
    (∀ (cmp : α → α → Bool) (a : List α), List.Perm (bubbleSort cmp a) a) ∧
    (∀ (cmp : α → α → Bool) (a : List α), List.Perm (insectionSort cmp a) a) ∧
    (∀ (cmp : α → α → Bool) (a b : List α), cocktailSort cmp a = some b →
      List.Perm b a) ∧
    (∀ (cmp : α → α → Bool) (a b : List α), mergeSort cmp a = some b →
      List.Perm b a) ∧
    (∀ (cmp : α → α → Bool) (rng : ℕ → ℕ) (a : List α),
      List.Perm (quickSort cmp rng a) a) ∧
    (∀ (cmp : α → α → Bool) (a : List α), List.Perm (heapSort cmp a) a) :=
  ⟨selectionSort_perm, bubbleSort_perm, insectionSort_perm, cocktailSort_perm,
   mergeSort_perm,
   fun cmp rng a => quickAux_perm cmp rng a.length a 0 (Nat.le_refl _),
   heapSort_perm⟩

/-- Claim C2, the part that fails as stated: `cocktail` does not complete
at all on `[9,1]` (the backward-range bound `end - 1` underflows), so not
every call leaves a permuted sequence behind. -/
theorem claim_C2_counterexample : cocktailSort natLtB [9,1] = none := by decide

/-- Witness for C2 at concrete inputs: heap on `[2,1,3]` and cocktail on
`[3,2,1]` (where it does return) produce permutations. -/
theorem claim_C2_witness :
    List.Perm (heapSort natLtB [2,1,3]) [2,1,3] ∧ List.Perm [2,1,3] [3,2,1] :=
  ⟨claim_C2.2.2.2.2.2.2 natLtB [2,1,3],
   claim_C2.2.2.2.1 natLtB [3,2,1] [2,1,3] (by decide)⟩

/-- Claim C3 (empty and singleton sequences are no-ops for all seven):
refuted by the code.  `cocktail` panics on the empty slice (`a.len()-1`
underflows) and on singletons (`end -= 1` underflows at `end == 0`); the
other six behave as the claim says. -/
theorem claim_C3 :
    cocktailSort natLtB ([] : List ℕ) = none ∧
    cocktailSort natLtB [5] = none ∧
    selectionSort natLtB ([] : List ℕ) = [] ∧ selectionSort natLtB [5] = [5] ∧
    bubbleSort natLtB ([] : List ℕ) = [] ∧ bubbleSort natLtB [5] = [5] ∧
    insectionSort natLtB ([] : List ℕ) = [] ∧ insectionSort natLtB [5] = [5] ∧
    mergeSort natLtB ([] : List ℕ) = some [] ∧ mergeSort natLtB [5] = some [5] ∧
    quickSort natLtB (fun _ => 0) ([] : List ℕ) = [] ∧
    quickSort natLtB (fun _ => 0) [5] = [5] ∧
    heapSort natLtB ([] : List ℕ) = [] ∧ heapSort natLtB [5] = [5] := by
  refine ⟨by decide, by decide, by decide, by decide, by decide, by decide, by decide,
    by decide, by simp [mergeSort], by simp [mergeSort],
    by simp [quickSort, quickAux], by simp [quickSort, quickAux], by decide, ?_⟩
  simp [heapSort, buildIter, extractIter, extractStep, heapify, heapRoot, swapL]

/-- Claim C4 (index arithmetic is guarded; cocktail never underflows on
lengths 1, 2, 3): refuted by the code.  On `[5]` the `end -= 1` at
`end == 0` underflows; on `[2,1]` the backward-range bound `end - 1` is
computed with `end == 0` and underflows (in release builds the wrapped
range then indexes out of bounds). -/
theorem claim_C4 :
    cocktailSort natLtB [5] = none ∧ cocktailSort natLtB [2,1] = none := by decide

/-- Claim C5 (merge ties favor the left half, so merge sort is stable):
refuted by the code.  When the two front elements are tied the loop's
`else` branch appends the RIGHT element first: on `[(4,0),(4,1)]`,
compared on the key only, merge swaps the tagged duplicates. -/
theorem claim_C5_counterexample :
    mergeSort keyLtB [(4,0),(4,1)] = some [(4,1),(4,0)] := by
  simp [mergeSort, combine, combineGo, copySeg, keyLtB]

/-- Claim C5 amended: when the front of the left half and the front of
the right half are tied (the predicate rejects the pair), `combine`
appends the RIGHT half's element first, so merge sort is not stable. -/
theorem claim_C5 (cmp : α → α → Bool) (x y : α) (xs ys o : List α)
    (hlen : (y :: ys).length + (x :: xs).length = o.length)
    (htie : cmp x y = false) :
    ∃ t, combine cmp (x :: xs) (y :: ys) o = some (y :: t) := by
  rw [combine_eq cmp _ _ _ hlen]
  refine ⟨fmerge cmp (x :: xs) ys, ?_⟩
  simp only [fmerge]
  rw [if_neg (by simp [htie])]

/-- Witness for the amended C5: a concrete tied pair. -/
theorem claim_C5_witness :
    ∃ t, combine keyLtB [(4,0)] [(4,1)] [(4,0),(4,1)] = some ((4,1) :: t) :=
  claim_C5 keyLtB (4,0) (4,1) [] [] [(4,0),(4,1)] (by decide) (by decide)

/-- Claim C6 (partition returns the pivot's final position): refuted by
the code, which returns `i + 1`.  On `[2,1]` with pivot drawn at index 0
(value 2) the call returns split point 2, but the pivot rests at index 1:
index 2 is out of bounds, and the element at index 1 — below the returned
split point — does not satisfy the predicate against the pivot. -/
theorem claim_C6_counterexample :
    (partitionF natLtB [2,1] 0).2 = 2 ∧
    (partitionF natLtB [2,1] 0).1 = [1,2] ∧
    natLtB ((partitionF natLtB [2,1] 0).1.getD 1 0) 2 = false := by decide

/-- Claim C6 amended: the value returned by `partition` is the pivot's
final position PLUS ONE.  Writing `mid` for the returned value: the array
keeps its length, `1 ≤ mid ≤ len`, the pivot value rests at `mid - 1`,
every element strictly below `mid - 1` satisfies the predicate against
the pivot, no element at `mid` or above does, and `quick` then recurses
on `0..mid-1` and `mid..len` — strictly left and strictly right of the
pivot's final position `mid - 1`. -/
theorem claim_C6 (cmp : α → α → Bool) (a : List α) (r : ℕ) (h : 2 ≤ a.length) :
    (partitionF cmp a r).1.length = a.length ∧
    1 ≤ (partitionF cmp a r).2 ∧ (partitionF cmp a r).2 ≤ a.length ∧
    (partitionF cmp a r).1.getD ((partitionF cmp a r).2 - 1) default
      = a.getD (r % (a.length - 1)) default ∧
    (∀ k, k < (partitionF cmp a r).2 - 1 →
      cmp ((partitionF cmp a r).1.getD k default)
        (a.getD (r % (a.length - 1)) default) = true) ∧
    (∀ k, (partitionF cmp a r).2 ≤ k → k < a.length →
      cmp ((partitionF cmp a r).1.getD k default)
        (a.getD (r % (a.length - 1)) default) = false) ∧
    (∀ (rng : ℕ → ℕ) (k : ℕ), rng k = r →
      (quickAux cmp rng a k).1
        = (quickAux cmp rng
            ((partitionF cmp a r).1.take ((partitionF cmp a r).2 - 1)) (k+1)).1
          ++ (partitionF cmp a r).1.getD ((partitionF cmp a r).2 - 1) default
          :: (quickAux cmp rng ((partitionF cmp a r).1.drop (partitionF cmp a r).2)
              ((quickAux cmp rng
                ((partitionF cmp a r).1.take ((partitionF cmp a r).2 - 1)) (k+1)).2)).1) := by
  have hs := partitionF_spec cmp a r h
  refine ⟨hs.1, hs.2.1, hs.2.2.1, hs.2.2.2.1, hs.2.2.2.2.1, hs.2.2.2.2.2, ?_⟩
  intro rng k hr
  rw [quickAux, dif_neg (by omega), hr]

/-- Witness for the amended C6: partitioning `[3,1,2]` with the pivot
drawn at index 0 (value 3) leaves the pivot at index `mid - 1`. -/
theorem claim_C6_witness :
    (partitionF natLtB [3,1,2] 0).1.getD ((partitionF natLtB [3,1,2] 0).2 - 1) default
      = [3,1,2].getD (0 % ([3,1,2].length - 1)) default :=
  (claim_C6 natLtB [3,1,2] 0 (by decide)).2.2.2.1

/-- Claim C7 (sorting an already-sorted sequence returns it unchanged):
refuted by the code.  `[1,2,3]` is sorted for less-than, yet `heap`
returns `[1,3,2]`. -/
theorem claim_C7 :
    adjOrdered natLtB [1,2,3] = true ∧ heapSort natLtB [1,2,3] = [1,3,2] := by
  refine ⟨by decide, ?_⟩
  simp [heapSort, buildIter, extractIter, extractStep, heapify, heapRoot, swapL, natLtB]

/-- Claim C8 (selection sort's outer iteration): confirmed.  For a
strict-weak-ordering predicate (irreflexive and transitive) and any
`i < len`: `i_min` lies in `i..len` and is a minimum of `a[i..len]`;
the iteration performs zero swaps when `i_min = i` and exactly the one
swap `swap(i_min, i)` otherwise; afterwards no element at a position
after `i` satisfies the predicate against the element at position `i`. -/
theorem claim_C8 (cmp : α → α → Bool) (a : List α) (i : ℕ)
    (hirr : ∀ x : α, cmp x x = false)
    (htr : ∀ x y z : α, cmp x y = true → cmp y z = true → cmp x z = true)
    (hi : i < a.length) :
    (i ≤ selIdx cmp a i ∧ selIdx cmp a i < a.length) ∧
    (∀ j, i ≤ j → j < a.length →
      cmp (a.getD j default) (a.getD (selIdx cmp a i) default) = false) ∧
    (selIdx cmp a i = i → selStep cmp a i = a) ∧
    (selIdx cmp a i ≠ i → selStep cmp a i = swapL a (selIdx cmp a i) i) ∧
    (selStep cmp a i).getD i default = a.getD (selIdx cmp a i) default ∧
    (∀ j, i < j → j < a.length →
      cmp ((selStep cmp a i).getD j default)
        ((selStep cmp a i).getD i default) = false) := by
  have hmin := selIdx_min cmp a i hirr htr hi
  have hstep_eq : selStep cmp a i
      = if selIdx cmp a i ≠ i then swapL a (selIdx cmp a i) i else a := rfl
  have hout_i : (selStep cmp a i).getD i default = a.getD (selIdx cmp a i) default := by
    rw [hstep_eq]
    by_cases hmi : selIdx cmp a i = i
    · rw [if_neg (by simp [hmi]), hmi]
    · rw [if_pos hmi]
      exact swapL_getD_snd a (selIdx cmp a i) i hi
  refine ⟨⟨hmin.1, hmin.2.1⟩, hmin.2.2, ?_, ?_, hout_i, ?_⟩
  · intro hmi
    rw [hstep_eq, if_neg (by simp [hmi])]
  · intro hmi
    rw [hstep_eq, if_pos hmi]
  · intro j hj1 hj2
    rw [hout_i]
    rw [hstep_eq]
    by_cases hmi : selIdx cmp a i = i
    · rw [if_neg (by simp [hmi])]
      exact hmin.2.2 j (by omega) hj2
    · rw [if_pos hmi]
      by_cases hjm : j = selIdx cmp a i
      · subst hjm
        rw [swapL_getD_fst a (selIdx cmp a i) i hmin.2.1]
        exact hmin.2.2 i (Nat.le_refl i) hi
      · rw [swapL_getD_of_ne a (selIdx cmp a i) i j hjm (by omega)]
        exact hmin.2.2 j (by omega) hj2

/-- Witness for C8 with numeric less-than on `[2,1,3]` at `i = 0`: the
element swapped into position 0 is the selected minimum. -/
theorem claim_C8_witness :
    (selStep natLtB [2,1,3] 0).getD 0 default
      = [2,1,3].getD (selIdx natLtB [2,1,3] 0) default :=
  (claim_C8 natLtB [2,1,3] 0 (fun x => by simp [natLtB])
    (fun x y z hxy hyz => by
      simp only [natLtB, decide_eq_true_eq] at hxy hyz ⊢
      omega)
    (by decide)).2.2.2.2.1

/-- Claim C9 (termination): confirmed — every embedded function above is
total (accepted by well-founded or structural recursion), and the three
structural reasons hold: both quicksort sub-ranges are strictly shorter
than the range partitioned; when `heapify` recurses the node index
strictly increases yet stays below the slice length; and a swap-free
forward pass makes cocktail's loop return immediately (its window bound
also shrinks by one on every other path, which is the structural
recursion of `cocktailLoop`). -/
theorem claim_C9 :
    (∀ (cmp : α → α → Bool) (a : List α) (r : ℕ), 2 ≤ a.length →
      ((partitionF cmp a r).1.take ((partitionF cmp a r).2 - 1)).length < a.length ∧
      ((partitionF cmp a r).1.drop (partitionF cmp a r).2).length < a.length) ∧
    (∀ (cmp : α → α → Bool) (a : List α) (aux : ℕ), heapRoot cmp a aux ≠ aux →
      aux < heapRoot cmp a aux ∧ heapRoot cmp a aux < a.length) ∧
    (∀ (cmp : α → α → Bool) (s e : ℕ) (a : List α), 1 ≤ e →
      (fwdGo cmp a s false (e - s)).2 = false →
      cocktailLoop cmp s a e = some (fwdGo cmp a s false (e - s)).1) := by
  refine ⟨?_, heapRoot_bounds, cocktailLoop_exit⟩
  intro cmp a r h
  have h1 := partitionF_length cmp a r
  have h2 := partitionF_snd_pos cmp a r
  have h3 := partitionF_snd_le cmp a r (by omega)
  constructor
  · rw [List.length_take]
    omega
  · rw [List.length_drop]
    omega

/-- Witness for C9 at concrete inputs. -/
theorem claim_C9_witness :
    (((partitionF natLtB [2,1] 0).1.take ((partitionF natLtB [2,1] 0).2 - 1)).length
        < [2,1].length ∧
      ((partitionF natLtB [2,1] 0).1.drop (partitionF natLtB [2,1] 0).2).length
        < [2,1].length) ∧
    (0 < heapRoot natLtB [1,2] 0 ∧ heapRoot natLtB [1,2] 0 < [1,2].length) ∧
    cocktailLoop natLtB 0 [1,2] 1 = some (fwdGo natLtB [1,2] 0 false 1).1 :=
  ⟨claim_C9.1 natLtB [2,1] 0 (by decide),
   claim_C9.2.1 natLtB [1,2] 0 (by decide),
   claim_C9.2.2 natLtB 0 1 [1,2] (by decide) (by decide)⟩

/-- Claim C10 (combine's entry assertion and residual copies are safe):
confirmed.  Whenever the two half lengths sum to the buffer length —
which is how `merge` always calls it — `combine` completes without
hitting the assertion failure or a length-mismatched `copy_from_slice`,
and `merge` as a whole never panics. -/
theorem claim_C10 :
    (∀ (cmp : α → α → Bool) (l r o : List α), r.length + l.length = o.length →
      (combine cmp l r o).isSome = true) ∧
    (∀ (cmp : α → α → Bool) (a : List α), (mergeSort cmp a).isSome = true) :=
  ⟨combine_isSome, mergeSort_isSome⟩

/-- Witness for C10 at concrete inputs. -/
theorem claim_C10_witness :
    (combine natLtB [1] [2] [0,0]).isSome = true ∧
    (mergeSort natLtB [2,1]).isSome = true :=
  ⟨claim_C10.1 natLtB [1] [2] [0,0] (by decide), claim_C10.2 natLtB [2,1]⟩

end SortAlgo
